import Mathlib

set_option maxHeartbeats 1000000

/-!
Verification development for the cnc-penplotter repository.

The embedding models the Python sources:
  * `back-end/gcode.py`      — layout engine, optimizing toolpath compiler
  * `back-end/hershey_gcode_cli.py` — non-optimizing fallback compiler
  * `back-end/app.py`        — job submission endpoint
  * `esp32/main.py`          — device session (acknowledgment protocol, job runner)

Python strings are modelled as `List Char` (`Str`).  Python floats are
idealised as exact rationals `ℚ` (the spec speaks of real-valued
coordinates).  The external Hershey font library is modelled, following the
spec's Font Store leaf, as an abstract pure function `Str → List Seg`
giving the stroke segments of a rendered string in font units.
-/

abbrev Str := List Char

/-- Python `s.strip()`: drop leading and trailing whitespace. -/
def pyStrip (s : Str) : Str :=
  ((s.dropWhile Char.isWhitespace).reverse.dropWhile Char.isWhitespace).reverse

/-- Python `s.rstrip("\n")`: drop trailing newline characters. -/
def rstripNl (s : Str) : Str :=
  (s.reverse.dropWhile (· = '\n')).reverse

/-- Python `s.split(c)` for a single-character separator: always returns at
least one (possibly empty) field, and empty fields between consecutive
separators. -/
def splitOnChar (c : Char) : Str → List Str
  | [] => [[]]
  | ch :: rest =>
    if ch = c then [] :: splitOnChar c rest
    else
      match splitOnChar c rest with
      | s :: ss => (ch :: s) :: ss
      | [] => [[ch]]

/-- Python `s.splitlines()` (newline-only model): `""` gives `[]`, and a
trailing newline does not produce a final empty field. -/
def pySplitlines (s : Str) : List Str :=
  if s = [] then []
  else if s.getLast? = some '\n' then (splitOnChar '\n' s).dropLast
  else splitOnChar '\n' s

/-- A 2-D point with exact rational coordinates. -/
structure Pt where
  x : ℚ
  y : ℚ
deriving DecidableEq, Repr

/-- A stroke segment `((x1,y1),(x2,y2))`. -/
structure Seg where
  p1 : Pt
  p2 : Pt
deriving DecidableEq, Repr

/-! ## Configuration constants of `gcode.py` -/

def WORKSPACE_WIDTH_MM : ℚ := 150
def WORKSPACE_HEIGHT_MM : ℚ := 150
def MARGIN_MM : ℚ := 5
def FEEDRATE : ℤ := 2500
def TARGET_CAP_HEIGHT_MM : ℚ := 10
def LINE_GAP_CAP_MULT : ℚ := 35 / 100
def FLIP_X : Bool := false
def FLIP_Y : Bool := false
def CLAMP_COORDS : Bool := true
def WRAP_TEXT : Bool := true
def MAX_TEXT_WIDTH_MM : ℚ := WORKSPACE_WIDTH_MM - 2 * MARGIN_MM
def CONNECT_TOL_MM : ℚ := 60 / 100

/-- `gcode.py` `_clamp(v, lo, hi)`. -/
def _clamp (v lo hi : ℚ) : ℚ :=
  if v < lo then lo else if hi < v then hi else v

/-- `gcode.py` `_bbox_of_segments(segs)`: `(minx, miny, maxx, maxy)`, all
zero for an empty list. -/
def _bbox_of_segments (segs : List Seg) : ℚ × ℚ × ℚ × ℚ :=
  let xs := segs.flatMap fun s => [s.p1.x, s.p2.x]
  let ys := segs.flatMap fun s => [s.p1.y, s.p2.y]
  match xs, ys with
  | x0 :: xr, y0 :: yr =>
      (xr.foldl min x0, yr.foldl min y0, xr.foldl max x0, yr.foldl max y0)
  | _, _ => (0, 0, 0, 0)

/-- The Font Store leaf: an abstract rendering function, standing for
`hf.lines_for_text` of the external Hershey font library. -/
abbrev Font := Str → List Seg

/-- `gcode.py` `_line_width_units(hf, s)`. -/
def _line_width_units (hf : Font) (s : Str) : ℚ :=
  let segs := hf s
  if segs = [] then 0
  else
    let (minx, _, maxx, _) := _bbox_of_segments segs
    maxx - minx

/-! ## The motion-program command vocabulary (spec §3 MotionProgram)

`PenUp`/`PenDown` are single commands even though their wire form is
multi-line (mode set plus settle dwell, emitted as a unit). -/

inductive Cmd where
  | setUnits                     -- G21
  | setAbsolute                  -- G90
  | penUp                        -- M5 + dwell
  | penDown                      -- M03 S35 + dwell
  | feedrate (f : ℤ)             -- F<rate>
  | rapidMove (x y : ℚ)          -- G0 X.. Y..
  | linearMove (x y : ℚ)         -- G1 X.. Y..
  | dwell (s : ℚ)                -- G4 P..
  | programEnd                   -- M30
deriving DecidableEq, Repr

/-- `gcode.py` `_dist2(a, b)`: squared Euclidean distance. -/
def _dist2 (a b : Pt) : ℚ :=
  (a.x - b.x) * (a.x - b.x) + (a.y - b.y) * (a.y - b.y)

/-- Squared connection tolerance `tol2 = CONNECT_TOL_MM ** 2`. -/
def tol2 : ℚ := CONNECT_TOL_MM * CONNECT_TOL_MM

/-- The reposition test of the `_to_gcode` loop:
`(cur_pos is None) or (_dist2(cur_pos, start) > tol2)`. -/
def needsRepos (cur : Option Pt) (start : Pt) : Bool :=
  match cur with
  | none => true
  | some p => decide (tol2 < _dist2 p start)

/-- Commands appended by one iteration of the `_to_gcode` loop body for
segment `s`, given the pen flag and current position. -/
def segOut (pen : Bool) (cur : Option Pt) (s : Seg) : List Cmd :=
  if needsRepos cur s.p1 then
    (if pen then [Cmd.penUp] else []) ++
      [Cmd.rapidMove s.p1.x s.p1.y, Cmd.penDown, Cmd.linearMove s.p2.x s.p2.y]
  else [Cmd.linearMove s.p2.x s.p2.y]

/-- Pen flag after one iteration of the `_to_gcode` loop body. -/
def segPen (pen : Bool) (cur : Option Pt) (s : Seg) : Bool :=
  if needsRepos cur s.p1 then true else pen

/-- All commands appended by the `_to_gcode` loop over a segment list
(the loop threads `pen_is_down` and `cur_pos`; after each segment
`cur_pos = end`). -/
def emitted : Bool → Option Pt → List Seg → List Cmd
  | _, _, [] => []
  | pen, cur, s :: rest => segOut pen cur s ++ emitted (segPen pen cur s) (some s.p2) rest

/-- Final `(pen_is_down, cur_pos)` state of the `_to_gcode` loop. -/
def finalSt : Bool → Option Pt → List Seg → Bool × Option Pt
  | pen, cur, [] => (pen, cur)
  | pen, cur, s :: rest => finalSt (segPen pen cur s) (some s.p2) rest

/-- The fixed program header of `_to_gcode`: G21, G90, pen up, feedrate. -/
def gHeader : List Cmd :=
  [Cmd.setUnits, Cmd.setAbsolute, Cmd.penUp, Cmd.feedrate FEEDRATE]

/-- `gcode.py` `_to_gcode(segs_mm)`: header, loop emissions, final pen-up
if the pen is still down, then M30. -/
def _to_gcode (segs : List Seg) : List Cmd :=
  gHeader ++ emitted false none segs ++
    (if (finalSt false none segs).1 then [Cmd.penUp] else []) ++ [Cmd.programEnd]

/-! ## Layout engine of `gcode.py` -/

/-- Inner hard-wrap loop of `_wrap_text_lines`: walk the characters of an
over-wide word, accumulating `chunk`; flush `chunk` (if non-empty) whenever
adding the next character would exceed the budget.  Returns the flushed
lines and the final `chunk`. -/
def hardWrap (hf : Font) (maxw : ℚ) : Str → Str → List Str × Str
  | chunk, [] => ([], chunk)
  | chunk, ch :: cs =>
    if _line_width_units hf (chunk ++ [ch]) ≤ maxw then hardWrap hf maxw (chunk ++ [ch]) cs
    else
      ((if chunk = [] then (hardWrap hf maxw [ch] cs).1
        else chunk :: (hardWrap hf maxw [ch] cs).1),
       (hardWrap hf maxw [ch] cs).2)

/-- Word loop of `_wrap_text_lines`: greedy accumulation of
space-separated words into `cur`, flushing when the candidate exceeds the
budget, hard-wrapping a single over-wide word.  Returns the flushed lines
and the final `cur`. -/
def wrapWords (hf : Font) (maxw : ℚ) : Str → List Str → List Str × Str
  | cur, [] => ([], cur)
  | cur, w :: ws =>
    if _line_width_units hf (if cur = [] then w else cur ++ [' '] ++ w) ≤ maxw then
      wrapWords hf maxw (if cur = [] then w else cur ++ [' '] ++ w) ws
    else
      if maxw < _line_width_units hf w then
        ((if cur = [] then [] else [cur]) ++ (hardWrap hf maxw [] w).1 ++
          (wrapWords hf maxw (hardWrap hf maxw [] w).2 ws).1,
         (wrapWords hf maxw (hardWrap hf maxw [] w).2 ws).2)
      else
        ((if cur = [] then [] else [cur]) ++ (wrapWords hf maxw w ws).1,
         (wrapWords hf maxw w ws).2)

/-- `gcode.py` `_wrap_text_lines(hf, text, max_width_units)`. -/
def _wrap_text_lines (hf : Font) (text : Str) (maxw : ℚ) : List Str :=
  let raws := match pySplitlines text with
    | [] => [([] : Str)]
    | ls => ls
  raws.flatMap fun raw =>
    let line := rstripNl raw
    if line = [] then [([] : Str)]
    else
      (wrapWords hf maxw [] (splitOnChar ' ' line)).1 ++
        [(wrapWords hf maxw [] (splitOnChar ' ' line)).2]

/-- Cursor loop of `_segments_for_multiline_text_down`: normalize each
line's bounding box to left = 0, top = 0, shift it down by the running
cursor, and advance the cursor by line height plus gap (gap alone for a
line with no segments). -/
def segmentsDownGo (hf : Font) (gap : ℚ) : List Str → ℚ → List Seg
  | [], _ => []
  | ln :: rest, yc =>
    let segs := hf ln
    if segs = [] then segmentsDownGo hf gap rest (yc - gap)
    else
      let (minx, miny, _, maxy) := _bbox_of_segments segs
      let shifted := segs.map fun s =>
        ⟨⟨s.p1.x - minx, s.p1.y - maxy + yc⟩, ⟨s.p2.x - minx, s.p2.y - maxy + yc⟩⟩
      shifted ++ segmentsDownGo hf gap rest (yc - ((maxy - miny) + gap))

/-- `gcode.py` `_segments_for_multiline_text_down(hf, lines, line_gap_units)`. -/
def _segments_for_multiline_text_down (hf : Font) (lines : List Str) (gap : ℚ) : List Seg :=
  segmentsDownGo hf gap lines 0

/-- `gcode.py` `_mm_per_unit_for_cap_height(hf)`: scale so capital `H` is
`TARGET_CAP_HEIGHT_MM` tall, with fallback `0.35` on degenerate metrics. -/
def _mm_per_unit_for_cap_height (hf : Font) : ℚ :=
  let segs := hf ['H']
  if segs = [] then 35 / 100
  else
    let (_, miny, _, maxy) := _bbox_of_segments segs
    if maxy - miny ≤ 0 then 35 / 100
    else TARGET_CAP_HEIGHT_MM / (maxy - miny)

/-- One coordinate pair of `_units_to_mm_left_middle`, including the
optional flips and the safety clamp. -/
def placePt (minx bcy mmpu : ℚ) (p : Pt) : Pt :=
  let X := (p.x - minx) * mmpu + MARGIN_MM
  let Y := (p.y - bcy) * mmpu + WORKSPACE_HEIGHT_MM / 2
  let X := if FLIP_X then WORKSPACE_WIDTH_MM - X else X
  let Y := if FLIP_Y then WORKSPACE_HEIGHT_MM - Y else Y
  let X := if CLAMP_COORDS then _clamp X MARGIN_MM (WORKSPACE_WIDTH_MM - MARGIN_MM) else X
  let Y := if CLAMP_COORDS then _clamp Y MARGIN_MM (WORKSPACE_HEIGHT_MM - MARGIN_MM) else Y
  ⟨X, Y⟩

/-- `gcode.py` `_units_to_mm_left_middle(segs_units, mm_per_unit)`. -/
def _units_to_mm_left_middle (segs : List Seg) (mmpu : ℚ) : List Seg :=
  if segs = [] then []
  else
    let (minx, miny, _, maxy) := _bbox_of_segments segs
    let bcy := (miny + maxy) / 2
    segs.map fun s => ⟨placePt minx bcy mmpu s.p1, placePt minx bcy mmpu s.p2⟩

/-- The placed-segment pipeline of `text_to_gcode` for non-blank text:
scale derivation, wrapping, stacking, placement. -/
def pipeline_segments (hf : Font) (t : Str) : List Seg :=
  let mmpu := _mm_per_unit_for_cap_height hf
  let capU := TARGET_CAP_HEIGHT_MM / mmpu
  let gapU := capU * LINE_GAP_CAP_MULT
  let maxWU := MAX_TEXT_WIDTH_MM / mmpu
  let lines := if WRAP_TEXT then _wrap_text_lines hf t maxWU
    else match pySplitlines t with
      | [] => [([] : Str)]
      | ls => ls
  let segsU := _segments_for_multiline_text_down hf lines gapU
  _units_to_mm_left_middle segsU mmpu

/-- `gcode.py` `text_to_gcode(text)`, parameterised by the Font Store.
Blank input short-circuits to `["G21", "G90", PEN_UP_CMD, "M30"]`. -/
def text_to_gcode (hf : Font) (text : Str) : List Cmd :=
  let t := rstripNl text
  if pyStrip t = [] then [Cmd.setUnits, Cmd.setAbsolute, Cmd.penUp, Cmd.programEnd]
  else _to_gcode (pipeline_segments hf t)

/-! ## `hershey_gcode_cli.py` non-optimizing fallback -/

def CLI_FEEDRATE : ℤ := 1500

/-- `hershey_gcode_cli.py` `to_gcode(segs_mm)`: lifts between every
segment (pen up, rapid to start, pen down, draw, pen up). -/
def to_gcode (segs : List Seg) : List Cmd :=
  [Cmd.setUnits, Cmd.setAbsolute, Cmd.penUp, Cmd.feedrate CLI_FEEDRATE] ++
    (segs.flatMap fun s =>
      [Cmd.penUp, Cmd.rapidMove s.p1.x s.p1.y, Cmd.penDown,
       Cmd.linearMove s.p2.x s.p2.y, Cmd.penUp]) ++
    [Cmd.programEnd]

/-! ## Device session (`esp32/main.py`) -/

/-- Lowercasing of a received chunk (`r.lower()`), character-wise. -/
def lowerStr (s : Str) : Str := s.map Char.toLower

/-- `startsWith n h`: `n` is a prefix of `h` (used to model Python's
substring test). -/
def startsWith : Str → Str → Bool
  | [], _ => true
  | _ :: _, [] => false
  | a :: as, b :: bs => a = b && startsWith as bs

/-- Python `needle in hay` substring containment. -/
def containsTok : Str → Str → Bool
  | [], needle => startsWith needle []
  | hay@(_ :: rest), needle => startsWith needle hay || containsTok rest needle

def okTok : Str := ['o', 'k']
def pgmEndTok : Str := ['p', 'g', 'm', ' ', 'e', 'n', 'd']
def alarmTok : Str := ['a', 'l', 'a', 'r', 'm']
def errorTok : Str := ['e', 'r', 'r', 'o', 'r']

/-- One classification pass of `send_line_wait` over the cumulative buffer:
success on `ok`/`pgm end`, failure on `alarm`/`error`, otherwise keep
waiting. -/
def scanStep (buf : Str) : Option Bool :=
  if containsTok buf okTok || containsTok buf pgmEndTok then some true
  else if containsTok buf alarmTok || containsTok buf errorTok then some false
  else none

/-- The receive loop of `send_line_wait`: each delivered chunk is
lowercased and appended to the cumulative buffer, which is then scanned for
tokens; an empty delivery is skipped (`if not r: continue`); exhausting the
deliveries models the overall timeout (`none`). -/
def scanChunks : Str → List Str → Option Bool
  | _, [] => none
  | buf, c :: cs =>
    if c = [] then scanChunks buf cs
    else
      let b2 := buf ++ lowerStr c
      match scanStep b2 with
      | some r => some r
      | none => scanChunks b2 cs

/-- `esp32/main.py` `send_line_wait(line, timeout_ms)`, with the serial
transport abstracted as the list of chunks the reads deliver within the
timeout window.  Returns the list of byte strings written to the UART and
the success flag (timeout counts as failure). -/
def send_line_wait (line : Str) (reads : List Str) : List Str × Bool :=
  let l := pyStrip line
  if l = [] then ([], true)
  else ([l ++ ['\n']], (scanChunks [] reads).getD false)

/-- `esp32/main.py` `normalize_gcode_line(line)`: strip, drop `;` comments,
drop blank and `(`-comment lines. -/
def normalize_gcode_line (l : Str) : Option Str :=
  let l1 := pyStrip l
  if l1 = [] then none
  else
    let l2 := if (';') ∈ l1 then pyStrip (l1.takeWhile (· ≠ ';')) else l1
    if l2 = [] ∨ l2.head? = some '(' then none else some l2

inductive JobOutcome where
  | completed
  | halted
deriving DecidableEq, Repr

/-- The line loop of `esp32/main.py` `run_job`, with the controller's
responses abstracted as an oracle `resp : ℕ → Bool` giving the success of
the `n`-th transmitted line's `send_line_wait`.  On a failure the code
enters an infinite `while True: sleep` loop; this is modelled as the
`halted` outcome (no further line of the job is transmitted).  Returns the
transmitted (normalized) lines and the outcome. -/
def runJobGo (resp : ℕ → Bool) : ℕ → List Str → List Str × JobOutcome
  | _, [] => ([], JobOutcome.completed)
  | sent, raw :: rest =>
    match normalize_gcode_line raw with
    | none => runJobGo resp sent rest
    | some line =>
      if resp sent then
        let (tx, o) := runJobGo resp (sent + 1) rest
        (line :: tx, o)
      else ([line], JobOutcome.halted)

/-- `esp32/main.py` `run_job(gcode_text)`: split into physical lines and
send each normalized line in order. -/
def run_job (resp : ℕ → Bool) (gtext : Str) : List Str × JobOutcome :=
  runJobGo resp 0 (pySplitlines gtext)

/-- Every command the session transmits from the start of a job onward:
the job's lines, followed — only on full success — by the post-job
recovery commands of `reset_after_job` and anything later (`post`).  In the
halted state the firmware loops forever sending nothing. -/
def session_transmissions (resp : ℕ → Bool) (gtext : Str) (post : List Str) : List Str :=
  let (tx, o) := run_job resp gtext
  match o with
  | JobOutcome.halted => tx
  | JobOutcome.completed => tx ++ post

/-! ## Job submission (`back-end/app.py`) -/

def MAX_QUEUE : ℕ := 25

structure SubmitResult where
  queue : List Str
  code : ℕ
  ok : Bool
  position : Option ℕ
deriving DecidableEq, Repr

/-- `back-end/app.py` `submit_job`: `text = (data.get("text") or "").strip()`;
reject blank text (400) and a full queue (429) with the queue unchanged;
otherwise append and report the position = queue length after the append. -/
def submit_job (q : List Str) (body : Option Str) : SubmitResult :=
  let text := pyStrip (body.getD [])
  if text = [] then ⟨q, 400, false, none⟩
  else if MAX_QUEUE ≤ q.length then ⟨q, 429, false, none⟩
  else ⟨q ++ [text], 200, true, some (q ++ [text]).length⟩

/-! ## Derived definitions used by the claims -/

/-- The safety clamp of `_units_to_mm_left_middle` applied to one point:
each coordinate clamped into `[margin, dimension − margin]`. -/
def workspaceClampPt (p : Pt) : Pt :=
  ⟨_clamp p.x MARGIN_MM (WORKSPACE_WIDTH_MM - MARGIN_MM),
   _clamp p.y MARGIN_MM (WORKSPACE_HEIGHT_MM - MARGIN_MM)⟩

/-- The workspace safety clamp applied to a segment set. -/
def workspaceClamp (segs : List Seg) : List Seg :=
  segs.map fun s => ⟨workspaceClampPt s.p1, workspaceClampPt s.p2⟩

/-! ## C6: clamp idempotence -/

/-- Pointwise clamp idempotence for ordered bounds. -/
theorem clamp_idem (v lo hi : ℚ) (h : lo ≤ hi) :
    _clamp (_clamp v lo hi) lo hi = _clamp v lo hi := by
  unfold _clamp
  split_ifs <;> linarith

/-- C6: Clamping is idempotent: for every coordinate value `v` and bounds
`lo ≤ hi`, `_clamp (_clamp v lo hi) lo hi = _clamp v lo hi`; hence
applying the workspace clamp (into `[margin, dimension − margin]`) to an
already-clamped segment set returns it unchanged. -/
theorem c6_clamp_idempotent :
    (∀ v lo hi : ℚ, lo ≤ hi → _clamp (_clamp v lo hi) lo hi = _clamp v lo hi) ∧
    (∀ segs : List Seg, workspaceClamp (workspaceClamp segs) = workspaceClamp segs) := by
  constructor
  · exact clamp_idem
  · intro segs
    unfold workspaceClamp
    rw [List.map_map]
    apply List.map_congr_left
    intro s _
    have hx : MARGIN_MM ≤ WORKSPACE_WIDTH_MM - MARGIN_MM := by
      norm_num [MARGIN_MM, WORKSPACE_WIDTH_MM]
    have hy : MARGIN_MM ≤ WORKSPACE_HEIGHT_MM - MARGIN_MM := by
      norm_num [MARGIN_MM, WORKSPACE_HEIGHT_MM]
    simp only [Function.comp_apply, workspaceClampPt, clamp_idem _ _ _ hx, clamp_idem _ _ _ hy]

/-- Witness for C6 at concrete inputs. -/
theorem c6_clamp_idempotent_witness :
    _clamp (_clamp 200 MARGIN_MM (WORKSPACE_WIDTH_MM - MARGIN_MM)) MARGIN_MM
        (WORKSPACE_WIDTH_MM - MARGIN_MM) =
      _clamp 200 MARGIN_MM (WORKSPACE_WIDTH_MM - MARGIN_MM) ∧
    workspaceClamp (workspaceClamp [⟨⟨200, -3⟩, ⟨7, 9⟩⟩]) =
      workspaceClamp [⟨⟨200, -3⟩, ⟨7, 9⟩⟩] :=
  ⟨c6_clamp_idempotent.1 200 MARGIN_MM (WORKSPACE_WIDTH_MM - MARGIN_MM)
      (by norm_num [MARGIN_MM, WORKSPACE_WIDTH_MM]),
   c6_clamp_idempotent.2 [⟨⟨200, -3⟩, ⟨7, 9⟩⟩]⟩

/-! ## C9: job submission -/

/-- C9: `submit_job` rejects blank text (HTTP 400) and a full queue
(HTTP 429) synchronously with the queue unchanged; on acceptance the
stripped text is appended and the reported position is the queue length
after the append. -/
theorem c9_submit :
    (∀ (q : List Str) (body : Option Str), pyStrip (body.getD []) = [] →
      submit_job q body = ⟨q, 400, false, none⟩) ∧
    (∀ (q : List Str) (body : Option Str), pyStrip (body.getD []) ≠ [] →
      MAX_QUEUE ≤ q.length → submit_job q body = ⟨q, 429, false, none⟩) ∧
    (∀ (q : List Str) (body : Option Str), pyStrip (body.getD []) ≠ [] →
      q.length < MAX_QUEUE →
      submit_job q body =
        ⟨q ++ [pyStrip (body.getD [])], 200, true, some (q.length + 1)⟩) := by
  refine ⟨?_, ?_, ?_⟩ <;> intro q body h
  · simp [submit_job, h]
  · intro hq
    simp [submit_job, h, hq]
  · intro hq
    simp [submit_job, h, Nat.not_le.mpr hq]

/-- Witness for C9: blank rejection, full-queue rejection, acceptance. -/
theorem c9_submit_witness :
    submit_job [] (some [' ']) = ⟨[], 400, false, none⟩ ∧
    submit_job (List.replicate 25 ['x']) (some ['a']) =
      ⟨List.replicate 25 ['x'], 429, false, none⟩ ∧
    submit_job [['b']] (some ['a']) = ⟨[['b'], ['a']], 200, true, some 2⟩ :=
  ⟨c9_submit.1 [] (some [' ']) (by decide),
   c9_submit.2.1 (List.replicate 25 ['x']) (some ['a']) (by decide) (by decide),
   c9_submit.2.2 [['b']] (some ['a']) (by decide) (by decide)⟩

/-! ## C10: blank lines are not transmitted -/

/-- C10: for every line that strips to nothing, `send_line_wait` succeeds
immediately, writing no bytes to the serial transport and waiting for no
response. -/
theorem c10_blank_line_send (line : Str) (reads : List Str)
    (h : pyStrip line = []) : send_line_wait line reads = ([], true) := by
  simp [send_line_wait, h]

/-- Witness for C10 at a concrete whitespace-only line. -/
theorem c10_blank_line_send_witness :
    send_line_wait [' ', '\t'] [['o'], ['k']] = ([], true) :=
  c10_blank_line_send [' ', '\t'] [['o'], ['k']] (by decide)

/-! ## C7: token reassembly in `send_line_wait` -/

theorem startsWith_le {n h : Str} (hs : startsWith n h = true) :
    n.length ≤ h.length := by
  induction n generalizing h with
  | nil => simp
  | cons a as ih =>
    cases h with
    | nil => simp [startsWith] at hs
    | cons b bs =>
      simp only [startsWith, Bool.and_eq_true] at hs
      simpa using ih hs.2

theorem containsTok_le {h n : Str} (hc : containsTok h n = true) :
    n.length ≤ h.length := by
  induction h with
  | nil => exact startsWith_le hc
  | cons a rest ih =>
    simp only [containsTok, Bool.or_eq_true] at hc
    rcases hc with hc | hc
    · exact startsWith_le hc
    · exact le_trans (ih hc) (by simp)

theorem containsTok_false_of_short {h n : Str} (hl : h.length < n.length) :
    containsTok h n = false := by
  cases hc : containsTok h n
  · rfl
  · exact absurd (containsTok_le hc) (Nat.not_le.mpr hl)

/-- On a buffer no longer than the acknowledgment token, the scanner can
only report success (if `ok` completed) or keep waiting: the failure
tokens are longer than the buffer. -/
theorem scanStep_short {buf : Str} (hlen : buf.length ≤ 2) :
    scanStep buf = if containsTok buf okTok then some true else none := by
  unfold scanStep
  rw [containsTok_false_of_short (n := pgmEndTok) (by simp [pgmEndTok]; omega),
    containsTok_false_of_short (n := alarmTok) (by simp [alarmTok]; omega),
    containsTok_false_of_short (n := errorTok) (by simp [errorTok]; omega)]
  simp

/-- Core reassembly lemma: if the cumulative lowercased bytes complete the
acknowledgment token exactly, the chunked scanner reports success, no
matter how the bytes are split across deliveries. -/
theorem scanChunks_ok : ∀ (cs : List Str) (buf : Str),
    buf ++ (cs.map lowerStr).flatten = okTok → scanStep buf = none →
    scanChunks buf cs = some true := by
  intro cs
  induction cs with
  | nil =>
    intro buf h hn
    simp only [List.map_nil, List.flatten_nil, List.append_nil] at h
    rw [h] at hn
    exact absurd hn (by decide)
  | cons c cs ih =>
    intro buf h hn
    simp only [List.map_cons, List.flatten_cons, ← List.append_assoc] at h
    by_cases hc : c = []
    · subst hc
      simp only [scanChunks, if_pos rfl]
      exact ih buf (by simpa [lowerStr] using h) hn
    · have hlen : (buf ++ lowerStr c).length ≤ 2 := by
        have := congrArg List.length h
        simp only [List.length_append, okTok, List.length_cons, List.length_nil] at this
        simp only [List.length_append]
        omega
      simp only [scanChunks, if_neg hc]
      rw [scanStep_short hlen]
      by_cases hok : containsTok (buf ++ lowerStr c) okTok
      · simp [hok]
      · simp only [hok, if_neg, Bool.false_eq_true, if_false]
        exact ih (buf ++ lowerStr c) h (by rw [scanStep_short hlen]; simp [hok])

/-- C7: the acknowledgment scanner of `send_line_wait` works over the
cumulative buffer: whenever the bytes delivered by the reads, lowercased
and concatenated, form the acknowledgment token `ok` (in any letter case,
split across any number of reads), the line is classified Acknowledged and
`send_line_wait` returns success. -/
theorem c7_token_reassembly (line : Str) (reads : List Str)
    (hline : pyStrip line ≠ [])
    (hok : (reads.map lowerStr).flatten = okTok) :
    (send_line_wait line reads).2 = true := by
  unfold send_line_wait
  rw [if_neg hline]
  have := scanChunks_ok reads [] (by simpa using hok) (by decide)
  simp [this]

/-- Witness for C7: the token `Ok` delivered in two separate reads
(`O`, then `k`) is still classified as Acknowledged. -/
theorem c7_token_reassembly_witness :
    (send_line_wait ['G', '1'] [['O'], ['k']]).2 = true :=
  c7_token_reassembly ['G', '1'] [['O'], ['k']] (by decide) (by decide)

/-! ## C8: halt on fault during a job -/

/-- Run-loop lemma: if the `k`-th transmitted line's wait fails (all
earlier ones succeeded), the loop transmits exactly the normalized lines
up to and including the failing one and halts. -/
theorem runJobGo_halt : ∀ (raws : List Str) (resp : ℕ → Bool) (sent k : ℕ),
    k < (raws.filterMap normalize_gcode_line).length →
    (∀ j < k, resp (sent + j) = true) → resp (sent + k) = false →
    runJobGo resp sent raws =
      ((raws.filterMap normalize_gcode_line).take (k + 1), JobOutcome.halted) := by
  intro raws
  induction raws with
  | nil =>
    intro resp sent k hk _ _
    simp at hk
  | cons raw rest ih =>
    intro resp sent k hk hbefore hfail
    cases hn : normalize_gcode_line raw with
    | none =>
      rw [List.filterMap_cons_none hn] at hk ⊢
      simp only [runJobGo, hn]
      exact ih resp sent k hk hbefore hfail
    | some line =>
      rw [List.filterMap_cons_some hn] at hk ⊢
      cases k with
      | zero =>
        have h0 : resp sent = false := by simpa using hfail
        simp [runJobGo, hn, h0]
      | succ k =>
        have h0 : resp sent = true := by simpa using hbefore 0 (Nat.succ_pos k)
        have hb : ∀ j < k, resp (sent + 1 + j) = true := by
          intro j hj
          have := hbefore (j + 1) (by omega)
          simpa [Nat.add_assoc, Nat.add_comm 1 j] using this
        have hf : resp (sent + 1 + k) = false := by
          simpa [Nat.add_assoc, Nat.add_comm 1 k] using hfail
        have hrec := ih resp (sent + 1) k (by simpa using hk) hb hf
        simp [runJobGo, hn, h0, hrec]

/-- C8: if `send_line_wait` fails for the `k`-th transmitted line of a job
(alarm/error token or timeout, abstracted by the response oracle), then no
subsequent line of that job is transmitted, the session halts, and — the
halted firmware looping forever — no later command (post-job recovery or
otherwise) is ever sent: the complete transmission trace is exactly the
normalized lines up to and including the failing one. -/
theorem c8_halt_on_fault (resp : ℕ → Bool) (gtext : Str) (post : List Str) (k : ℕ)
    (hk : k < ((pySplitlines gtext).filterMap normalize_gcode_line).length)
    (hbefore : ∀ j < k, resp j = true) (hfail : resp k = false) :
    run_job resp gtext =
      (((pySplitlines gtext).filterMap normalize_gcode_line).take (k + 1),
        JobOutcome.halted) ∧
    session_transmissions resp gtext post =
      ((pySplitlines gtext).filterMap normalize_gcode_line).take (k + 1) := by
  have h := runJobGo_halt (pySplitlines gtext) resp 0 k hk
    (by intro j hj; simpa using hbefore j hj) (by simpa using hfail)
  refine ⟨h, ?_⟩
  simp [session_transmissions, run_job] at h ⊢
  simp [h]

/-- Witness for C8: a three-line job whose second transmitted line fails
sends exactly the first two lines and halts. -/
theorem c8_halt_on_fault_witness :
    run_job (fun n => n == 0) ['G', '1', '\n', 'G', '2', '\n', 'G', '3'] =
      ([['G', '1'], ['G', '2']], JobOutcome.halted) ∧
    session_transmissions (fun n => n == 0) ['G', '1', '\n', 'G', '2', '\n', 'G', '3']
        [['M', '5']] = [['G', '1'], ['G', '2']] := by
  have h := c8_halt_on_fault (fun n => n == 0) ['G', '1', '\n', 'G', '2', '\n', 'G', '3']
    [['M', '5']] 1 (by decide)
    (fun j hj => by simp at hj; simp [hj]) (by decide)
  exact ⟨by rw [h.1]; decide, by rw [h.2]; decide⟩

/-! ## C1: pen-state bookkeeping -/

/-- Pen state after executing a command list (`false` = up, `true` = down),
starting from a given state. -/
def penStateAfter (p : Bool) (cmds : List Cmd) : Bool :=
  cmds.foldl
    (fun st c =>
      match c with
      | Cmd.penUp => false
      | Cmd.penDown => true
      | _ => st) p

theorem penStateAfter_append (p : Bool) (l1 l2 : List Cmd) :
    penStateAfter p (l1 ++ l2) = penStateAfter (penStateAfter p l1) l2 := by
  simp only [penStateAfter]
  rw [List.foldl_append]

theorem penStateAfter_segOut (pen : Bool) (cur : Option Pt) (s : Seg) :
    penStateAfter pen (segOut pen cur s) = segPen pen cur s := by
  unfold segOut segPen
  by_cases h : needsRepos cur s.p1 = true
  · simp only [if_pos h]
    cases pen <;> rfl
  · simp only [if_neg h]
    rfl

theorem penStateAfter_emitted : ∀ (segs : List Seg) (pen : Bool) (cur : Option Pt),
    penStateAfter pen (emitted pen cur segs) = (finalSt pen cur segs).1 := by
  intro segs
  induction segs with
  | nil => intro pen cur; rfl
  | cons s rest ih =>
    intro pen cur
    simp only [emitted, finalSt, penStateAfter_append, penStateAfter_segOut]
    exact ih (segPen pen cur s) (some s.p2)

theorem count_segOut_down (pen : Bool) (cur : Option Pt) (s : Seg) :
    (segOut pen cur s).count Cmd.penDown + (if pen then 1 else 0) =
      (segOut pen cur s).count Cmd.penUp + (if segPen pen cur s then 1 else 0) := by
  unfold segOut segPen
  by_cases h : needsRepos cur s.p1 = true
  · simp only [if_pos h]
    cases pen <;> simp [List.count_append, List.count_cons]
  · simp only [if_neg h]
    cases pen <;> simp [List.count_cons]

theorem count_emitted : ∀ (segs : List Seg) (pen : Bool) (cur : Option Pt),
    (emitted pen cur segs).count Cmd.penDown + (if pen then 1 else 0) =
      (emitted pen cur segs).count Cmd.penUp +
        (if (finalSt pen cur segs).1 then 1 else 0) := by
  intro segs
  induction segs with
  | nil => intro pen cur; rfl
  | cons s rest ih =>
    intro pen cur
    simp only [emitted, finalSt, List.count_append]
    have h1 := count_segOut_down pen cur s
    have h2 := ih (segPen pen cur s) (some s.p2)
    omega

theorem count_cli_body_up (segs : List Seg) :
    (segs.flatMap fun s =>
      [Cmd.penUp, Cmd.rapidMove s.p1.x s.p1.y, Cmd.penDown,
       Cmd.linearMove s.p2.x s.p2.y, Cmd.penUp]).count Cmd.penUp = 2 * segs.length := by
  induction segs with
  | nil => rfl
  | cons s rest ih =>
    simp only [List.flatMap_cons, List.count_append, ih, List.length_cons]
    simp [List.count_cons]
    ring

theorem count_cli_body_down (segs : List Seg) :
    (segs.flatMap fun s =>
      [Cmd.penUp, Cmd.rapidMove s.p1.x s.p1.y, Cmd.penDown,
       Cmd.linearMove s.p2.x s.p2.y, Cmd.penUp]).count Cmd.penDown = segs.length := by
  induction segs with
  | nil => rfl
  | cons s rest ih =>
    simp only [List.flatMap_cons, List.count_append, ih, List.length_cons]
    simp [List.count_cons]
    omega

theorem penState_cli_body (segs : List Seg) (p : Bool) :
    penStateAfter p (segs.flatMap fun s =>
      [Cmd.penUp, Cmd.rapidMove s.p1.x s.p1.y, Cmd.penDown,
       Cmd.linearMove s.p2.x s.p2.y, Cmd.penUp]) = (if segs = [] then p else false) := by
  induction segs generalizing p with
  | nil => rfl
  | cons s rest ih =>
    simp only [List.flatMap_cons, penStateAfter_append]
    have hblk : penStateAfter p
        [Cmd.penUp, Cmd.rapidMove s.p1.x s.p1.y, Cmd.penDown,
         Cmd.linearMove s.p2.x s.p2.y, Cmd.penUp] = false := rfl
    rw [hblk, ih]
    simp

/-- C1 (amended): in every program generated by the optimizing compiler
`_to_gcode` (hence by `text_to_gcode`), the number of `PenUp` commands is
the number of `PenDown` commands plus one — the extra `PenUp` being the
mandatory header one; in the non-optimizing fallback `to_gcode` it is
twice the `PenDown` count plus one.  In all cases the program never ends
with the pen down (executing the program leaves the pen up). -/
theorem c1_pen_balance :
    (∀ segs : List Seg,
      (_to_gcode segs).count Cmd.penUp = (_to_gcode segs).count Cmd.penDown + 1) ∧
    (∀ segs : List Seg,
      (to_gcode segs).count Cmd.penUp = 2 * (to_gcode segs).count Cmd.penDown + 1) ∧
    (∀ (hf : Font) (text : Str),
      (text_to_gcode hf text).count Cmd.penUp =
        (text_to_gcode hf text).count Cmd.penDown + 1) ∧
    (∀ segs : List Seg, penStateAfter false (_to_gcode segs) = false) ∧
    (∀ segs : List Seg, penStateAfter false (to_gcode segs) = false) ∧
    (∀ (hf : Font) (text : Str), penStateAfter false (text_to_gcode hf text) = false) := by
  have hOpt : ∀ segs : List Seg,
      (_to_gcode segs).count Cmd.penUp = (_to_gcode segs).count Cmd.penDown + 1 := by
    intro segs
    have h := count_emitted segs false none
    simp only [Bool.false_eq_true, if_false, Nat.add_zero] at h
    unfold _to_gcode gHeader
    by_cases hF : (finalSt false none segs).1 = true
    · rw [hF] at h
      simp only [hF, if_true, List.count_append, List.count_cons, List.count_nil]
      simp only [if_true] at h ⊢
      simp [h]
      omega
    · rw [Bool.not_eq_true] at hF
      rw [hF] at h
      simp only [hF, Bool.false_eq_true, if_false, List.count_append] at h ⊢
      simp only [List.count_cons, List.count_nil]
      simp [h]
      omega
  have hOptPen : ∀ segs : List Seg, penStateAfter false (_to_gcode segs) = false := by
    intro segs
    unfold _to_gcode
    simp only [penStateAfter_append]
    have hhdr : penStateAfter false gHeader = false := rfl
    rw [hhdr, penStateAfter_emitted]
    by_cases hF : (finalSt false none segs).1 = true
    · rw [hF]; rfl
    · rw [Bool.not_eq_true] at hF
      rw [hF]; rfl
  refine ⟨hOpt, ?_, ?_, hOptPen, ?_, ?_⟩
  · intro segs
    unfold to_gcode
    simp only [List.count_append, count_cli_body_up, count_cli_body_down,
      List.count_cons, List.count_nil]
    simp
    omega
  · intro hf text
    unfold text_to_gcode
    by_cases hb : pyStrip (rstripNl text) = []
    · simp [hb]
    · simp only [hb, if_neg, if_false]
      exact hOpt (pipeline_segments hf (rstripNl text))
  · intro segs
    unfold to_gcode
    simp only [penStateAfter_append]
    have hhdr : penStateAfter false
        [Cmd.setUnits, Cmd.setAbsolute, Cmd.penUp, Cmd.feedrate CLI_FEEDRATE] = false := rfl
    rw [hhdr, penState_cli_body]
    by_cases h : segs = [] <;> simp [h] <;> rfl
  · intro hf text
    unfold text_to_gcode
    by_cases hb : pyStrip (rstripNl text) = []
    · simp [hb]; rfl
    · simp only [hb, if_neg, if_false]
      exact hOptPen (pipeline_segments hf (rstripNl text))

/-- Counterexample to C1 as stated: for the single placed segment
`(10,10)–(20,10)` the optimizing compiler emits one `PenDown` but two
`PenUp` commands (header pen-up plus the final lift), so the two counts
are not equal. -/
theorem c1_counterexample :
    (_to_gcode [⟨⟨10, 10⟩, ⟨20, 10⟩⟩]).count Cmd.penDown ≠
      (_to_gcode [⟨⟨10, 10⟩, ⟨20, 10⟩⟩]).count Cmd.penUp := by
  decide

/-! ## C2: contiguity optimization of `_to_gcode` -/

theorem emitted_append : ∀ (l1 l2 : List Seg) (pen : Bool) (cur : Option Pt),
    emitted pen cur (l1 ++ l2) =
      emitted pen cur l1 ++
        emitted (finalSt pen cur l1).1 (finalSt pen cur l1).2 l2 := by
  intro l1
  induction l1 with
  | nil => intro l2 pen cur; rfl
  | cons s rest ih =>
    intro l2 pen cur
    simp only [List.cons_append, emitted, finalSt, List.append_eq, ih, List.append_assoc]

theorem finalSt_append : ∀ (l1 l2 : List Seg) (pen : Bool) (cur : Option Pt),
    finalSt pen cur (l1 ++ l2) =
      finalSt (finalSt pen cur l1).1 (finalSt pen cur l1).2 l2 := by
  intro l1
  induction l1 with
  | nil => intro l2 pen cur; rfl
  | cons s rest ih =>
    intro l2 pen cur
    simp only [List.cons_append, finalSt, List.append_eq, ih]

/-- Once the pen is down it stays down for the remainder of the loop
(every iteration either keeps it down or re-lowers it). -/
theorem finalSt_pen_true : ∀ (l : List Seg) (cur : Option Pt),
    (finalSt true cur l).1 = true := by
  intro l
  induction l with
  | nil => intro cur; rfl
  | cons s rest ih =>
    intro cur
    have hs : segPen true cur s = true := by simp [segPen]
    simp only [finalSt, hs]
    exact ih (some s.p2)

/-- After processing a non-empty segment list from the initial state the
pen is down. -/
theorem finalSt_pen_ne (l : List Seg) (hl : l ≠ []) :
    (finalSt false none l).1 = true := by
  cases l with
  | nil => exact absurd rfl hl
  | cons s rest =>
    have hs : segPen false none s = true := by simp [segPen, needsRepos]
    simp only [finalSt, hs]
    exact finalSt_pen_true rest (some s.p2)

theorem finalSt_snd_last (l : List Seg) (s : Seg) (pen : Bool) (cur : Option Pt) :
    (finalSt pen cur (l ++ [s])).2 = some s.p2 := by
  rw [finalSt_append]
  rfl

/-- The emission for a segment always ends with its `LinearMove`. -/
theorem emitted_ends_linear (l : List Seg) (s : Seg) (pen : Bool) (cur : Option Pt) :
    ∃ A, emitted pen cur (l ++ [s]) = A ++ [Cmd.linearMove s.p2.x s.p2.y] := by
  rw [emitted_append]
  have h1 : emitted (finalSt pen cur l).1 (finalSt pen cur l).2 [s] =
      segOut (finalSt pen cur l).1 (finalSt pen cur l).2 s := by
    simp [emitted]
  rw [h1]
  unfold segOut
  by_cases h : needsRepos (finalSt pen cur l).2 s.p1 = true
  · refine ⟨emitted pen cur l ++
      ((if (finalSt pen cur l).1 then [Cmd.penUp] else []) ++
        [Cmd.rapidMove s.p1.x s.p1.y, Cmd.penDown]), ?_⟩
    simp [h, List.append_assoc]
  · exact ⟨emitted pen cur l, by simp [h]⟩

/-- C2: the contiguity rule of the optimizing compiler.  (c) For the first
segment (no current position) it emits `RapidMove(start)`, `PenDown` before
the `LinearMove`.  (a) Between two consecutive segments whose squared
end-to-start distance is below the squared connection tolerance it emits
nothing between the two `LinearMove`s.  (b) When the squared distance
exceeds the squared tolerance it emits exactly `PenUp`,
`RapidMove(start)`, `PenDown` between them. -/
theorem c2_contiguity :
    (∀ (s : Seg) (rest : List Seg),
      _to_gcode (s :: rest) =
        gHeader ++ [Cmd.rapidMove s.p1.x s.p1.y, Cmd.penDown,
            Cmd.linearMove s.p2.x s.p2.y] ++
          emitted true (some s.p2) rest ++ [Cmd.penUp, Cmd.programEnd]) ∧
    (∀ (pre : List Seg) (s t : Seg) (rest : List Seg),
      _dist2 s.p2 t.p1 < tol2 →
      _to_gcode (pre ++ s :: t :: rest) =
        gHeader ++ emitted false none (pre ++ [s]) ++
          [Cmd.linearMove t.p2.x t.p2.y] ++
          emitted true (some t.p2) rest ++ [Cmd.penUp, Cmd.programEnd] ∧
      ∃ A, emitted false none (pre ++ [s]) = A ++ [Cmd.linearMove s.p2.x s.p2.y]) ∧
    (∀ (pre : List Seg) (s t : Seg) (rest : List Seg),
      tol2 < _dist2 s.p2 t.p1 →
      _to_gcode (pre ++ s :: t :: rest) =
        gHeader ++ emitted false none (pre ++ [s]) ++
          [Cmd.penUp, Cmd.rapidMove t.p1.x t.p1.y, Cmd.penDown,
            Cmd.linearMove t.p2.x t.p2.y] ++
          emitted true (some t.p2) rest ++ [Cmd.penUp, Cmd.programEnd] ∧
      ∃ A, emitted false none (pre ++ [s]) = A ++ [Cmd.linearMove s.p2.x s.p2.y]) := by
  have hsplit : ∀ (pre : List Seg) (s t : Seg) (rest : List Seg),
      pre ++ s :: t :: rest = (pre ++ [s]) ++ (t :: rest) := by
    intro pre s t rest; simp
  have hmain : ∀ (pre : List Seg) (s t : Seg) (rest : List Seg),
      _to_gcode (pre ++ s :: t :: rest) =
        gHeader ++ emitted false none (pre ++ [s]) ++
          segOut true (some s.p2) t ++
          emitted true (some t.p2) rest ++ [Cmd.penUp, Cmd.programEnd] := by
    intro pre s t rest
    have hPen : (finalSt false none (pre ++ [s] ++ t :: rest)).1 = true :=
      finalSt_pen_ne _ (by simp)
    unfold _to_gcode
    rw [hsplit, hPen, emitted_append,
      finalSt_pen_ne (pre ++ [s]) (by simp), finalSt_snd_last]
    have hemit : emitted true (some s.p2) (t :: rest) =
        segOut true (some s.p2) t ++ emitted true (some t.p2) rest := by
      have hp : segPen true (some s.p2) t = true := by simp [segPen]
      simp only [emitted, hp]
    rw [hemit]
    simp [List.append_assoc]
  refine ⟨?_, ?_, ?_⟩
  · intro s rest
    unfold _to_gcode
    have h1 : emitted false none (s :: rest) =
        [Cmd.rapidMove s.p1.x s.p1.y, Cmd.penDown, Cmd.linearMove s.p2.x s.p2.y] ++
          emitted true (some s.p2) rest := by
      have hp : segPen false none s = true := by simp [segPen, needsRepos]
      have ho : segOut false none s =
          [Cmd.rapidMove s.p1.x s.p1.y, Cmd.penDown, Cmd.linearMove s.p2.x s.p2.y] := by
        simp [segOut, needsRepos]
      simp only [emitted, hp, ho]
    rw [h1, finalSt_pen_ne (s :: rest) (by simp)]
    simp [List.append_assoc]
  · intro pre s t rest hd
    have hnr : needsRepos (some s.p2) t.p1 = false := by
      simp only [needsRepos, decide_eq_false_iff_not]
      exact not_lt.mpr hd.le
    have ho : segOut true (some s.p2) t = [Cmd.linearMove t.p2.x t.p2.y] := by
      simp [segOut, hnr]
    refine ⟨?_, emitted_ends_linear pre s false none⟩
    rw [hmain, ho]
  · intro pre s t rest hd
    have hnr : needsRepos (some s.p2) t.p1 = true := by
      simp only [needsRepos, decide_eq_true_eq]
      exact hd
    have ho : segOut true (some s.p2) t =
        [Cmd.penUp, Cmd.rapidMove t.p1.x t.p1.y, Cmd.penDown,
          Cmd.linearMove t.p2.x t.p2.y] := by
      simp [segOut, hnr]
    refine ⟨?_, emitted_ends_linear pre s false none⟩
    rw [hmain, ho]

/-- Witness for C2: a contiguous pair (shared endpoint, distance 0) and a
distant pair (distance far above tolerance), at concrete coordinates. -/
theorem c2_contiguity_witness :
    (_dist2 (⟨1, 0⟩ : Pt) ⟨1, 0⟩ < tol2 ∧
      (_to_gcode [⟨⟨0, 0⟩, ⟨1, 0⟩⟩, ⟨⟨1, 0⟩, ⟨2, 0⟩⟩] =
        gHeader ++ emitted false none [⟨⟨0, 0⟩, ⟨1, 0⟩⟩] ++
          [Cmd.linearMove 2 0] ++
          emitted true (some ⟨2, 0⟩) [] ++ [Cmd.penUp, Cmd.programEnd] ∧
        ∃ A, emitted false none [⟨⟨0, 0⟩, ⟨1, 0⟩⟩] = A ++ [Cmd.linearMove 1 0])) ∧
    (tol2 < _dist2 (⟨1, 0⟩ : Pt) ⟨5, 5⟩ ∧
      (_to_gcode [⟨⟨0, 0⟩, ⟨1, 0⟩⟩, ⟨⟨5, 5⟩, ⟨6, 5⟩⟩] =
        gHeader ++ emitted false none [⟨⟨0, 0⟩, ⟨1, 0⟩⟩] ++
          [Cmd.penUp, Cmd.rapidMove 5 5, Cmd.penDown, Cmd.linearMove 6 5] ++
          emitted true (some ⟨6, 5⟩) [] ++ [Cmd.penUp, Cmd.programEnd] ∧
        ∃ A, emitted false none [⟨⟨0, 0⟩, ⟨1, 0⟩⟩] = A ++ [Cmd.linearMove 1 0])) :=
  ⟨⟨by norm_num [_dist2, tol2, CONNECT_TOL_MM],
    c2_contiguity.2.1 [] ⟨⟨0, 0⟩, ⟨1, 0⟩⟩ ⟨⟨1, 0⟩, ⟨2, 0⟩⟩ []
      (by norm_num [_dist2, tol2, CONNECT_TOL_MM])⟩,
   ⟨by norm_num [_dist2, tol2, CONNECT_TOL_MM],
    c2_contiguity.2.2 [] ⟨⟨0, 0⟩, ⟨1, 0⟩⟩ ⟨⟨5, 5⟩, ⟨6, 5⟩⟩ []
      (by norm_num [_dist2, tol2, CONNECT_TOL_MM])⟩⟩

/-! ## C3: header and footer of the serialized program -/

/-- C3 (amended): for non-blank input, the program produced by
`text_to_gcode` begins with the fixed header `SetUnits` (G21),
`SetAbsolute` (G90), `PenUp`, feedrate declaration.  For blank input the
feedrate line is omitted: the program is exactly
`SetUnits, SetAbsolute, PenUp, ProgramEnd`.  Whenever the compiled segment
list is non-empty, the optimizing compiler's program ends with `PenUp`
followed by `ProgramEnd` (the blank-input program does so as well). -/
theorem c3_header_footer :
    (∀ (hf : Font) (text : Str), pyStrip (rstripNl text) = [] →
      text_to_gcode hf text =
        [Cmd.setUnits, Cmd.setAbsolute] ++ [Cmd.penUp, Cmd.programEnd]) ∧
    (∀ (hf : Font) (text : Str), pyStrip (rstripNl text) ≠ [] →
      ∃ rest, text_to_gcode hf text = gHeader ++ rest) ∧
    (∀ segs : List Seg, segs ≠ [] →
      ∃ A, _to_gcode segs = A ++ [Cmd.penUp, Cmd.programEnd]) := by
  refine ⟨?_, ?_, ?_⟩
  · intro hf text hb
    simp [text_to_gcode, hb]
  · intro hf text hb
    refine ⟨emitted false none (pipeline_segments hf (rstripNl text)) ++
      ((if (finalSt false none (pipeline_segments hf (rstripNl text))).1
          then [Cmd.penUp] else []) ++ [Cmd.programEnd]), ?_⟩
    simp [text_to_gcode, hb, _to_gcode, List.append_assoc]
  · intro segs hs
    refine ⟨gHeader ++ emitted false none segs, ?_⟩
    unfold _to_gcode
    rw [finalSt_pen_ne segs hs]
    simp [List.append_assoc]

/-- Counterexample to C3 as stated: on the empty input text the program
does not begin with the four-command header ending in the feedrate
declaration — the feedrate line is missing. -/
theorem c3_counterexample :
    ¬ ∃ rest, text_to_gcode (fun _ => []) [] =
        [Cmd.setUnits, Cmd.setAbsolute, Cmd.penUp, Cmd.feedrate FEEDRATE] ++ rest := by
  rintro ⟨rest, h⟩
  have hblank : text_to_gcode (fun _ => []) [] =
      [Cmd.setUnits, Cmd.setAbsolute, Cmd.penUp, Cmd.programEnd] := rfl
  rw [hblank] at h
  simp at h

/-- Witness for C3 at concrete inputs. -/
theorem c3_header_footer_witness :
    text_to_gcode (fun _ => []) ['\n'] =
      [Cmd.setUnits, Cmd.setAbsolute] ++ [Cmd.penUp, Cmd.programEnd] ∧
    (∃ rest, text_to_gcode (fun _ => []) ['a'] = gHeader ++ rest) ∧
    (∃ A, _to_gcode [⟨⟨0, 0⟩, ⟨1, 0⟩⟩] = A ++ [Cmd.penUp, Cmd.programEnd]) :=
  ⟨c3_header_footer.1 (fun _ => []) ['\n'] (by decide),
   c3_header_footer.2.1 (fun _ => []) ['a'] (by decide),
   c3_header_footer.2.2 [⟨⟨0, 0⟩, ⟨1, 0⟩⟩] (by simp)⟩

/-! ## C4: blank input -/

/-- C4 (amended): blank (empty or whitespace-only) input yields exactly
the program `SetUnits, SetAbsolute, PenUp, ProgramEnd`: no `RapidMove`,
`LinearMove`, or `PenDown` commands, and the only `PenUp` is the single
mandatory header one (the feedrate declaration is also absent). -/
theorem c4_blank_input (hf : Font) (text : Str)
    (hb : pyStrip (rstripNl text) = []) :
    text_to_gcode hf text =
      [Cmd.setUnits, Cmd.setAbsolute, Cmd.penUp, Cmd.programEnd] ∧
    (∀ x y : ℚ, Cmd.rapidMove x y ∉ text_to_gcode hf text ∧
      Cmd.linearMove x y ∉ text_to_gcode hf text) ∧
    Cmd.penDown ∉ text_to_gcode hf text ∧
    (text_to_gcode hf text).count Cmd.penUp = 1 := by
  have h : text_to_gcode hf text =
      [Cmd.setUnits, Cmd.setAbsolute, Cmd.penUp, Cmd.programEnd] := by
    simp [text_to_gcode, hb]
  refine ⟨h, ?_, ?_, ?_⟩
  · intro x y
    rw [h]
    constructor <;> simp
  · rw [h]; simp
  · rw [h]; rfl

/-- Counterexample to C4 as stated: the whitespace-only input `" "` is
blank, yet its program does contain a `PenUp` command (the header one), so
"no PenUp commands" fails. -/
theorem c4_counterexample :
    pyStrip (rstripNl [' ']) = [] ∧
    Cmd.penUp ∈ text_to_gcode (fun _ => []) [' '] := by
  exact ⟨by decide, by decide⟩

/-- Witness for C4 at a concrete blank input. -/
theorem c4_blank_input_witness :
    text_to_gcode (fun _ => []) ['\n'] =
      [Cmd.setUnits, Cmd.setAbsolute, Cmd.penUp, Cmd.programEnd] ∧
    Cmd.penDown ∉ text_to_gcode (fun _ => []) ['\n'] ∧
    Cmd.rapidMove 3 4 ∉ text_to_gcode (fun _ => []) ['\n'] :=
  ⟨(c4_blank_input (fun _ => []) ['\n'] (by decide)).1,
   (c4_blank_input (fun _ => []) ['\n'] (by decide)).2.2.1,
   ((c4_blank_input (fun _ => []) ['\n'] (by decide)).2.1 3 4).1⟩

/-! ## C5: wrapping width bound -/

/-- A line produced by the wrapper is acceptable: its rendered width is
within the budget, or it is a single character. -/
def lineOk (hf : Font) (maxw : ℚ) (l : Str) : Prop :=
  _line_width_units hf l ≤ maxw ∨ ∃ c, l = [c]

/-- Invariant of the wrapper's accumulators (`cur` / `chunk`): empty or
acceptable. -/
def accOk (hf : Font) (maxw : ℚ) (s : Str) : Prop :=
  s = [] ∨ lineOk hf maxw s

theorem hardWrap_inv (hf : Font) (maxw : ℚ) :
    ∀ (w : Str) (chunk : Str), accOk hf maxw chunk →
      (∀ l ∈ (hardWrap hf maxw chunk w).1, lineOk hf maxw l) ∧
        accOk hf maxw (hardWrap hf maxw chunk w).2 := by
  intro w
  induction w with
  | nil =>
    intro chunk hch
    exact ⟨by simp [hardWrap], by simpa [hardWrap] using hch⟩
  | cons ch cs ih =>
    intro chunk hch
    by_cases hc : _line_width_units hf (chunk ++ [ch]) ≤ maxw
    · simp only [hardWrap, if_pos hc]
      exact ih (chunk ++ [ch]) (Or.inr (Or.inl hc))
    · simp only [hardWrap, if_neg hc]
      obtain ⟨hls, hfin⟩ := ih [ch] (Or.inr (Or.inr ⟨ch, rfl⟩))
      refine ⟨?_, hfin⟩
      by_cases hck : chunk = []
      · simp only [if_pos hck]
        exact hls
      · simp only [if_neg hck]
        intro l hl
        rcases List.mem_cons.mp hl with h | h
        · subst h
          rcases hch with h0 | h0
          · exact absurd h0 hck
          · exact h0
        · exact hls l h

theorem wrapWords_inv (hf : Font) (maxw : ℚ) :
    ∀ (ws : List Str) (cur : Str), accOk hf maxw cur →
      (∀ l ∈ (wrapWords hf maxw cur ws).1, lineOk hf maxw l) ∧
        accOk hf maxw (wrapWords hf maxw cur ws).2 := by
  intro ws
  induction ws with
  | nil =>
    intro cur hc
    exact ⟨by simp [wrapWords], by simpa [wrapWords] using hc⟩
  | cons w ws ih =>
    intro cur hc
    by_cases hcand :
        _line_width_units hf (if cur = [] then w else cur ++ [' '] ++ w) ≤ maxw
    · simp only [wrapWords, if_pos hcand]
      exact ih _ (Or.inr (Or.inl hcand))
    · simp only [wrapWords, if_neg hcand]
      have hflush : ∀ l ∈ (if cur = [] then ([] : List Str) else [cur]),
          lineOk hf maxw l := by
        by_cases hck : cur = []
        · simp [hck]
        · simp only [if_neg hck]
          intro l hl
          rw [List.mem_singleton] at hl
          subst hl
          rcases hc with h0 | h0
          · exact absurd h0 hck
          · exact h0
      by_cases hw : maxw < _line_width_units hf w
      · simp only [if_pos hw]
        obtain ⟨h1, h2⟩ := hardWrap_inv hf maxw w [] (Or.inl rfl)
        obtain ⟨h3, h4⟩ := ih (hardWrap hf maxw [] w).2 h2
        refine ⟨?_, h4⟩
        intro l hl
        simp only [List.mem_append] at hl
        rcases hl with (hl | hl) | hl
        · exact hflush l hl
        · exact h1 l hl
        · exact h3 l hl
      · simp only [if_neg hw]
        obtain ⟨h3, h4⟩ := ih w (Or.inr (Or.inl (not_lt.mp hw)))
        refine ⟨?_, h4⟩
        intro l hl
        simp only [List.mem_append] at hl
        rcases hl with hl | hl
        · exact hflush l hl
        · exact h3 l hl

/-- C5 (amended): for every font store (rendering nothing for the empty
string), every input text and every positive width budget, each line
produced by `_wrap_text_lines` either has rendered width at most the
budget, or is a single character whose own rendered width exceeds the
budget (a character wider than the budget cannot be split further by the
character-by-character hard split). -/
theorem c5_wrap_width (hf : Font) (text : Str) (maxw : ℚ)
    (hempty : hf [] = []) (hpos : 0 < maxw) :
    ∀ l ∈ _wrap_text_lines hf text maxw,
      _line_width_units hf l ≤ maxw ∨
        ∃ c, l = [c] ∧ maxw < _line_width_units hf l := by
  have hnil : _line_width_units hf [] = 0 := by simp [_line_width_units, hempty]
  have conv : ∀ l, lineOk hf maxw l →
      _line_width_units hf l ≤ maxw ∨
        ∃ c, l = [c] ∧ maxw < _line_width_units hf l := by
    intro l hl
    by_cases hle : _line_width_units hf l ≤ maxw
    · exact Or.inl hle
    · rcases hl with h | ⟨c, rfl⟩
      · exact absurd h hle
      · exact Or.inr ⟨c, rfl, not_le.mp hle⟩
  intro l hl
  unfold _wrap_text_lines at hl
  rw [List.mem_flatMap] at hl
  obtain ⟨raw, _, hmem⟩ := hl
  by_cases hline : rstripNl raw = []
  · rw [if_pos hline] at hmem
    rw [List.mem_singleton] at hmem
    subst hmem
    exact Or.inl (by rw [hnil]; exact hpos.le)
  · rw [if_neg hline] at hmem
    obtain ⟨h1, h2⟩ :=
      wrapWords_inv hf maxw (splitOnChar ' ' (rstripNl raw)) [] (Or.inl rfl)
    rw [List.mem_append] at hmem
    rcases hmem with hm | hm
    · exact conv l (h1 l hm)
    · rw [List.mem_singleton] at hm
      subst hm
      rcases h2 with h0 | h0
      · exact Or.inl (by rw [h0, hnil]; exact hpos.le)
      · exact conv _ h0

/-- A concrete font store for the C5 analysis: the single character `a`
renders as one horizontal stroke of width 2 font units; everything else
renders nothing. -/
def wideFont : Font := fun s => if s = ['a'] then [⟨⟨0, 0⟩, ⟨2, 0⟩⟩] else []

/-- Counterexample to C5 as stated: with width budget 1 (positive), the
word `a` is wider than the budget and is hard-split, but the resulting
chunk `"a"` — a single character — still has rendered width 2 > 1; not
every hard-split chunk fits the budget. -/
theorem c5_counterexample :
    wideFont [] = [] ∧ (0 : ℚ) < 1 ∧
    _wrap_text_lines wideFont ['a'] 1 = [['a']] ∧
    ¬ (_line_width_units wideFont ['a'] ≤ 1) := by
  have hw : _line_width_units wideFont ['a'] = 2 := by
    simp [wideFont, _line_width_units, _bbox_of_segments, min_def, max_def]
  have h1 : ¬ _line_width_units wideFont ['a'] ≤ 1 := by rw [hw]; norm_num
  have h2 : (1 : ℚ) < _line_width_units wideFont ['a'] := by rw [hw]; norm_num
  have hhw : hardWrap wideFont 1 [] ['a'] = ([], ['a']) := by
    simp only [hardWrap, List.nil_append]
    rw [if_neg h1]
    simp [hardWrap]
  have hww0 : wrapWords wideFont 1 ['a'] [] = ([], ['a']) := by simp [wrapWords]
  have hww : wrapWords wideFont 1 [] [['a']] = ([], ['a']) := by
    simp [wrapWords, h1, h2, hhw, hww0]
  have e1 : pySplitlines ['a'] = [['a']] := by decide
  have e2 : rstripNl ['a'] = ['a'] := by decide
  have e3 : splitOnChar ' ' ['a'] = [['a']] := by decide
  refine ⟨rfl, by norm_num, ?_, h1⟩
  simp [_wrap_text_lines, e1, e2, e3, hww]

/-- Witness for C5 at concrete inputs (empty text, trivial font). -/
theorem c5_wrap_width_witness :
    _line_width_units (fun _ => []) [] ≤ 1 ∨
      ∃ c, ([] : Str) = [c] ∧ (1 : ℚ) < _line_width_units (fun _ => []) [] :=
  c5_wrap_width (fun _ => []) [] 1 rfl (by norm_num) [] (by decide)
